import Mathlib

/-!
Verification development for the connection / dependency-graph layer of a
small database client (`datajoint/connection.py`, `datajoint/dependencies.py`).

The Python source is shallowly embedded: pure computations become Lean
functions, the mutable connection and graph state becomes explicit state
records threaded through the step functions, driver-level I/O outcomes
(ping results, statement-execution failures, introspection query results)
become explicit inputs, and raised exceptions become `Except` / `Option`
error values.
-/

/- ===================== Error translation (connection.py) ===================== -/

/-- Class of a driver ("client") exception, mirroring the `pymysql.err`
exception classes inspected by `translate_query_error`:
`InterfaceError`, `OperationalError`, `IntegrityError`, `ProgrammingError`,
`InternalError`; `otherClass` stands for any other caught driver error
(e.g. `DataError`, `NotSupportedError`, plain `DatabaseError`). -/
inductive ErrClass where
  | interfaceErr
  | operationalErr
  | integrityErr
  | programmingErr
  | internalErr
  | otherClass
deriving DecidableEq, Repr

/-- First element of a driver error's `args` tuple: either a string
(as in the interface-error sentinel `"(0, '')"`) or a numeric error code. -/
inductive ErrArg where
  | str (s : String)
  | num (n : Int)
deriving DecidableEq, Repr

/-- A driver error as far as `translate_query_error` inspects it:
its class and `args[0]`.  The remaining `args` and the query text are only
threaded into the constructed exception messages, never into the decision
of which kind is produced, so they are not modelled. -/
structure ClientError where
  cls : ErrClass
  arg0 : ErrArg
deriving DecidableEq, Repr

/-- The DataJoint error taxonomy produced by `translate_query_error`
(`errors.LostConnectionError`, `errors.AccessError`, `errors.DuplicateError`,
`errors.IntegrityError`, `errors.QuerySyntaxError`, `errors.MissingTableError`,
`errors.MissingAttributeError`, `errors.UnknownAttributeError`). -/
inductive DJKind where
  | lostConnection
  | accessDenied
  | duplicateEntry
  | integrityViolation
  | querySyntax
  | missingTable
  | missingAttribute
  | unknownAttribute
deriving DecidableEq, Repr

/-- Result of translating a driver error: either a typed DataJoint error
of some kind, or the original driver error passed through unchanged. -/
inductive TranslateOutcome where
  | dj (k : DJKind)
  | passthrough (e : ClientError)
deriving DecidableEq, Repr

/-- Embedding of `translate_query_error` (connection.py lines 25-59): the
if-chain over the error class and `args[0]`, in source order. -/
def translate_query_error (e : ClientError) : TranslateOutcome :=
  if e.cls = .interfaceErr ∧ e.arg0 = .str "(0, '')" then .dj .lostConnection
  else if e.cls = .operationalErr ∧ (e.arg0 = .num 2006 ∨ e.arg0 = .num 2013) then
    .dj .lostConnection
  else if e.cls = .operationalErr ∧ (e.arg0 = .num 1044 ∨ e.arg0 = .num 1142) then
    .dj .accessDenied
  else if e.cls = .integrityErr ∧ e.arg0 = .num 1062 then .dj .duplicateEntry
  else if e.cls = .integrityErr ∧ e.arg0 = .num 1452 then .dj .integrityViolation
  else if e.cls = .programmingErr ∧ e.arg0 = .num 1064 then .dj .querySyntax
  else if e.cls = .programmingErr ∧ e.arg0 = .num 1146 then .dj .missingTable
  else if e.cls = .internalErr ∧ e.arg0 = .num 1364 then .dj .missingAttribute
  else if e.cls = .internalErr ∧ e.arg0 = .num 1054 then .dj .unknownAttribute
  else .passthrough e

/-- The spec's error-translation table, written as a row list
(error class, `args[0]`, resulting kind), one row per table line:
interface-level error with empty detail; operational connection-timeout and
server-gone-away codes; operational insufficient-privilege codes; integrity
duplicate-key and FK-violation codes; programming SQL-syntax and
unknown-table codes; internal unknown-column-in-constraint and
unknown-column codes. -/
def specTranslationTable : List (ErrClass × ErrArg × DJKind) :=
  [ (.interfaceErr, .str "(0, '')", .lostConnection),
    (.operationalErr, .num 2006, .lostConnection),
    (.operationalErr, .num 2013, .lostConnection),
    (.operationalErr, .num 1044, .accessDenied),
    (.operationalErr, .num 1142, .accessDenied),
    (.integrityErr, .num 1062, .duplicateEntry),
    (.integrityErr, .num 1452, .integrityViolation),
    (.programmingErr, .num 1064, .querySyntax),
    (.programmingErr, .num 1146, .missingTable),
    (.internalErr, .num 1364, .missingAttribute),
    (.internalErr, .num 1054, .unknownAttribute) ]

/-- Look an error up in a row list: first row whose class and code both
match wins. -/
def lookupRow : List (ErrClass × ErrArg × DJKind) → ClientError → Option DJKind
  | [], _ => none
  | r :: rs, e => if e.cls = r.1 ∧ e.arg0 = r.2.1 then some r.2.2 else lookupRow rs e

/-- Translation as the spec words it: look the error up in the table;
on a hit produce the tabled kind, otherwise pass the error through
unchanged ("anything else: pass through unchanged"). -/
def specTranslate (e : ClientError) : TranslateOutcome :=
  match lookupRow specTranslationTable e with
  | some k => .dj k
  | none => .passthrough e

/-- C1: for every driver error, the error-translation function returns
exactly what the spec's translation table prescribes, and every error not
matched by a table row is returned unchanged. -/
theorem translate_query_error_matches_spec_table (e : ClientError) :
    translate_query_error e = specTranslate e := by
  rcases e with ⟨cls, arg0⟩
  rcases cls <;> rcases arg0 with ⟨s⟩ | ⟨n⟩ <;>
    simp [translate_query_error, specTranslate, specTranslationTable, lookupRow] <;>
    split_ifs <;> simp_all

/-- Witness for C1 at a concrete input: the duplicate-key integrity error
code 1062 is translated, and the translation agrees with the table. -/
theorem translate_query_error_matches_spec_table_witness :
    translate_query_error ⟨.integrityErr, .num 1062⟩ =
      specTranslate ⟨.integrityErr, .num 1062⟩ ∧
    translate_query_error ⟨.integrityErr, .num 1062⟩ = .dj .duplicateEntry :=
  ⟨translate_query_error_matches_spec_table ⟨.integrityErr, .num 1062⟩, by decide⟩

/- ===================== Connection state machine (connection.py) ===================== -/

/-- Backend discriminator: the source distinguishes the two backends by
`self.conn_info['port'] == 'sqlite'` (networked MySQL server vs embedded
SQLite file). -/
inductive Backend where
  | mysql
  | sqlite
deriving DecidableEq, Repr

/-- Outcome of `self._conn.ping(reconnect=False)`, an environment input:
the ping returns normally (`ok`), the handle has no `ping` attribute and
an `AttributeError` is raised (`attrMissing` — always the case for the
embedded sqlite3 handle, and for a handle that is `None`), or a network
error is raised (`netError`). -/
inductive PingOutcome where
  | ok
  | attrMissing
  | netError
deriving DecidableEq, Repr

/-- Embedding of the `is_connected` property (connection.py lines 205-218):
`try: self.ping()` — on `AttributeError` return `True` for the sqlite
backend and `False` otherwise; on ping returning normally the `else`
branch returns `False` (making the trailing `return True` unreachable);
any other exception from the ping propagates (`Except.error`). -/
def is_connected (backend : Backend) (ping : PingOutcome) : Except Unit Bool :=
  match ping with
  | .ok => .ok false
  | .attrMissing => .ok (if backend = .sqlite then true else false)
  | .netError => .error ()

/-- Outcome of the post-connect check in `Connection.__init__`
(connection.py lines 135-142). -/
inductive InitOutcome where
  | ok
  | connectionError
  | pingExn
deriving DecidableEq, Repr

/-- Embedding of the `__init__` check after a successful `connect()`
(connection.py lines 135-142): `if self.is_connected: ... else raise
errors.ConnectionError('Connection failed.')`; an exception escaping
`is_connected` propagates out of the constructor. -/
def post_connect_check (backend : Backend) (ping : PingOutcome) : InitOutcome :=
  match is_connected backend ping with
  | .ok true => .ok
  | .ok false => .connectionError
  | .error _ => .pingExn

/-- C9: the health check / constructor behaviour.  On the embedded backend
`is_connected` is `True` once the file is opened (the sqlite3 handle has no
`ping` attribute, so the `AttributeError` branch runs).  On the networked
backend, however, a SUCCESSFUL ping makes `is_connected` return `False`
(the `else: return False` branch shadows the unreachable `return True`),
so the constructor's post-connect check raises `ConnectionError` even
though the connection is healthy — contradicting both the claim and the
method's own docstring ("Returns true if the object is connected"). -/
theorem is_connected_health_check_outcomes :
    is_connected .sqlite .attrMissing = .ok true ∧
    is_connected .mysql .ok = .ok false ∧
    post_connect_check .mysql .ok = .connectionError ∧
    post_connect_check .sqlite .attrMissing = .ok :=
  ⟨rfl, rfl, rfl, rfl⟩

/-- Errors a statement execution can surface out of `_execute_query`
after translation: `errors.LostConnectionError` (translated pymysql loss),
the three sqlite3 error kinds the sqlite branch singles out,
any other `sqlite3.DatabaseError`, and errors not caught by the
`except (errors.LostConnectionError, sqlite3.DatabaseError)` clause at all. -/
inductive ExecErr where
  | lostConnection
  | sqliteOperational
  | sqliteIntegrity
  | sqliteProgramming
  | sqliteOtherDatabase
  | uncaught
deriving DecidableEq, Repr

/-- Mutable connection state relevant to the transaction / reconnect logic:
the `_in_transaction` flag and the generation of the physical handle
(`connect()` replaces the handle wholesale, bumping the generation). -/
structure ConnState where
  tx : Bool
  gen : Nat
deriving DecidableEq, Repr

/-- Everything observable about one `query()` call: the exception that
propagates (if any), the connection state on exit, the handle generation
the returned cursor is bound to (if a cursor is returned), and how many
times the original statement was executed against a backend handle. -/
structure QueryOutcome where
  err : Option ExecErr
  st : ConnState
  cursorGen : Option Nat
  execs : Nat
deriving DecidableEq, Repr

/-- Embedding of the error-recovery logic of `Connection.query`
(connection.py lines 263-299).  `reconnect` is the already-resolved flag
(the source resolves `None` from config first).  `firstErr` is the outcome
of the first `_execute_query` and `secondErr` the outcome of the
re-execution, both environment inputs.  The mysql branch: reconnect
(`self.connect()`, new handle) — then, inside a transaction, roll back and
raise `LostConnectionError`, otherwise re-execute once on a fresh cursor.
The sqlite branch: re-raise Operational/Integrity/Programming errors
unchanged; otherwise, inside a transaction roll back (on the old handle)
and raise `LostConnectionError`, else close, reconnect and re-execute
once.  The `ROLLBACK` issued by `cancel_transaction` is assumed to return
control (its only failure on the embedded engine, an
`OperationalError`, is swallowed there). -/
def query_retry (backend : Backend) (reconnect : Bool) (st : ConnState)
    (firstErr : Option ExecErr) (secondErr : Option ExecErr) : QueryOutcome :=
  match firstErr with
  | none => ⟨none, st, some st.gen, 1⟩
  | some e =>
    if e = .uncaught then ⟨some e, st, none, 1⟩
    else
      match backend with
      | .mysql =>
        if reconnect = false then ⟨some e, st, none, 1⟩
        else
          if st.tx then ⟨some .lostConnection, ⟨false, st.gen + 1⟩, none, 1⟩
          else
            match secondErr with
            | none => ⟨none, ⟨st.tx, st.gen + 1⟩, some (st.gen + 1), 2⟩
            | some e2 => ⟨some e2, ⟨st.tx, st.gen + 1⟩, none, 2⟩
      | .sqlite =>
        if e = .sqliteOperational ∨ e = .sqliteIntegrity ∨ e = .sqliteProgramming then
          ⟨some e, st, none, 1⟩
        else if reconnect = false then ⟨some e, st, none, 1⟩
        else if st.tx then ⟨some .lostConnection, ⟨false, st.gen⟩, none, 1⟩
        else
          match secondErr with
          | none => ⟨none, ⟨st.tx, st.gen + 1⟩, some (st.gen + 1), 2⟩
          | some e2 => ⟨some e2, ⟨st.tx, st.gen + 1⟩, none, 2⟩

/-- The recoverable connection-loss errors per backend: on the networked
backend a translated `LostConnectionError`; on the embedded backend a
`sqlite3.DatabaseError` that is none of the Operational / Integrity /
Programming kinds the branch re-raises unchanged. -/
def recoverableLoss (backend : Backend) (e : ExecErr) : Prop :=
  (backend = .mysql ∧ e = .lostConnection) ∨
    (backend = .sqlite ∧ e = .sqliteOtherDatabase)

/-- C4: reconnect policy of `query`.  On a recoverable connection-loss
error with `reconnect` true: inside a transaction the call raises
`LostConnectionError`, leaves the transaction flag false and never
re-executes the statement; outside a transaction it reconnects (new
handle generation), re-executes the original statement exactly once and
returns a cursor on the new handle.  With `reconnect` false the original
error propagates unchanged and the state is untouched. -/
theorem query_reconnect_policy (backend : Backend) (st : ConnState)
    (reconnect : Bool) (e : ExecErr) (secondErr : Option ExecErr)
    (hrec : recoverableLoss backend e) :
    (reconnect = true → st.tx = true →
      (query_retry backend reconnect st (some e) secondErr).err = some .lostConnection ∧
      (query_retry backend reconnect st (some e) secondErr).st.tx = false ∧
      (query_retry backend reconnect st (some e) secondErr).execs = 1 ∧
      (query_retry backend reconnect st (some e) secondErr).cursorGen = none) ∧
    (reconnect = true → st.tx = false → secondErr = none →
      (query_retry backend reconnect st (some e) secondErr).err = none ∧
      (query_retry backend reconnect st (some e) secondErr).st.gen = st.gen + 1 ∧
      (query_retry backend reconnect st (some e) secondErr).cursorGen = some (st.gen + 1) ∧
      (query_retry backend reconnect st (some e) secondErr).execs = 2) ∧
    (reconnect = false →
      (query_retry backend reconnect st (some e) secondErr).err = some e ∧
      (query_retry backend reconnect st (some e) secondErr).st = st ∧
      (query_retry backend reconnect st (some e) secondErr).execs = 1) := by
  rcases hrec with ⟨hb, he⟩ | ⟨hb, he⟩ <;> subst hb <;> subst he <;>
    rcases st with ⟨tx, gen⟩ <;> rcases tx <;> rcases reconnect <;>
    rcases secondErr with _ | e2 <;> simp [query_retry]

/-- Witness for C4 at a concrete input: server-gone-away loss on the
networked backend with `reconnect` true and an open transaction raises
`LostConnectionError` and clears the transaction flag. -/
theorem query_reconnect_policy_witness :
    (query_retry .mysql true ⟨true, 0⟩ (some .lostConnection) none).err =
        some .lostConnection ∧
      (query_retry .mysql true ⟨true, 0⟩ (some .lostConnection) none).st.tx = false := by
  have h := query_reconnect_policy .mysql ⟨true, 0⟩ true .lostConnection none
    (Or.inl ⟨rfl, rfl⟩)
  exact ⟨(h.1 rfl rfl).1, (h.1 rfl rfl).2.1⟩

/-- Embedding of the `in_transaction` property (connection.py lines
310-316): `self._in_transaction = self._in_transaction and
self.is_connected` (Python `and` short-circuits, so the ping only runs
when the flag is set), then the flag is returned.  An exception escaping
`is_connected` propagates; the result pairs the returned value with the
updated `_in_transaction` flag. -/
def in_transaction (backend : Backend) (ping : PingOutcome) (tx : Bool) :
    Except Unit (Bool × Bool) :=
  if tx = false then .ok (false, false)
  else
    match is_connected backend ping with
    | .ok b => .ok (b, b)
    | .error e => .error e

/-- What a `start_transaction` call did: the error that propagated (if
any), the `_in_transaction` flag afterwards, and whether a BEGIN / START
TRANSACTION statement was issued to the backend. -/
structure StartTxOutcome where
  err : Option Bool
  tx : Bool
  beganStmt : Bool
deriving DecidableEq, Repr

/-- Embedding of `Connection.start_transaction` (connection.py lines
318-329): `if self.in_transaction: raise errors.DataJointError("Nested
connections are not supported.")`; otherwise issue `BEGIN TRANSACTION`
(sqlite) or `START TRANSACTION WITH CONSISTENT SNAPSHOT` (mysql) — the
statement itself is assumed to execute successfully — and set
`_in_transaction = True`.  In the error field, `some true` is the
nested-transaction `DataJointError` and `some false` an exception escaping
the `in_transaction` ping. -/
def start_transaction (backend : Backend) (ping : PingOutcome) (tx : Bool) :
    StartTxOutcome :=
  match in_transaction backend ping tx with
  | .error _ => ⟨some false, tx, false⟩
  | .ok (true, tx1) => ⟨some true, tx1, false⟩
  | .ok (false, _) => ⟨none, true, true⟩

/-- C7 evaluation: on the embedded backend (whose handle always raises
`AttributeError` on ping, so `is_connected` is `True`) a nested
`start_transaction` raises the `DataJointError` and leaves the flag true,
as claimed; but on the networked backend with a HEALTHY connection (ping
returns normally) `is_connected` is `False`, `in_transaction` resets the
flag, and the nested call silently issues a second START TRANSACTION
instead of raising — refuting the claim for the networked backend. -/
theorem start_transaction_nested_guard_outcomes :
    start_transaction .sqlite .attrMissing true = ⟨some true, true, false⟩ ∧
    start_transaction .mysql .ok true = ⟨none, true, true⟩ ∧
    start_transaction .sqlite .attrMissing false = ⟨none, true, true⟩ ∧
    start_transaction .mysql .ok false = ⟨none, true, true⟩ := by
  decide

/-- Error kinds relevant to the transaction verbs: the error raised by the
`ROLLBACK` / `COMMIT` query.  `sqliteOperational` is the
`sqlite3.OperationalError` the embedded engine raises when it has already
auto-closed the transaction; `otherStmtErr` is any other error coming out
of `query` (e.g. a translated networked-backend error), which the verb
does not catch. -/
inductive VerbErr where
  | sqliteOperational
  | otherStmtErr
deriving DecidableEq, Repr

/-- Result of a `cancel_transaction` / `commit_transaction` call: the
propagated error (if any) and the `_in_transaction` flag afterwards. -/
structure TxVerbOutcome where
  err : Option VerbErr
  tx : Bool
deriving DecidableEq, Repr

/-- Embedding of `Connection.cancel_transaction` (connection.py lines
331-343): `try: self.query('ROLLBACK') except sqlite3.OperationalError:
pass`, then `self._in_transaction = False`.  `stmt` is the outcome of the
ROLLBACK query (environment input); any error other than the embedded
engine's `OperationalError` propagates before the flag assignment is
reached. -/
def cancel_transaction (tx : Bool) (stmt : Option VerbErr) : TxVerbOutcome :=
  match stmt with
  | none => ⟨none, false⟩
  | some .sqliteOperational => ⟨none, false⟩
  | some .otherStmtErr => ⟨some .otherStmtErr, tx⟩

/-- Embedding of `Connection.commit_transaction` (connection.py lines
345-358): identical shape to `cancel_transaction`, issuing COMMIT. -/
def commit_transaction (tx : Bool) (stmt : Option VerbErr) : TxVerbOutcome :=
  match stmt with
  | none => ⟨none, false⟩
  | some .sqliteOperational => ⟨none, false⟩
  | some .otherStmtErr => ⟨some .otherStmtErr, tx⟩

/-- Modelled from the environment: outcome of issuing ROLLBACK or COMMIT
when no transaction is open — the networked server accepts it silently,
the embedded engine raises `sqlite3.OperationalError`
("cannot rollback/commit - no transaction is active"). -/
def noTxVerbStmt : Backend → Option VerbErr
  | .mysql => none
  | .sqlite => some .sqliteOperational

/-- C8: both transaction-closing verbs leave `transactionState` false on
every normal return; called with no open transaction on either backend
they do not raise and leave the flag false; the embedded engine's
already-auto-closed `OperationalError` is swallowed while any other error
propagates (leaving the flag untouched, since the raise happens before the
assignment). -/
theorem tx_verbs_unconditional_close (backend : Backend) (tx : Bool)
    (stmt : Option VerbErr) :
    ((cancel_transaction false (noTxVerbStmt backend)).err = none ∧
      (cancel_transaction false (noTxVerbStmt backend)).tx = false) ∧
    ((commit_transaction false (noTxVerbStmt backend)).err = none ∧
      (commit_transaction false (noTxVerbStmt backend)).tx = false) ∧
    ((cancel_transaction tx stmt).err = none → (cancel_transaction tx stmt).tx = false) ∧
    ((commit_transaction tx stmt).err = none → (commit_transaction tx stmt).tx = false) ∧
    (cancel_transaction tx (some .sqliteOperational)).err = none ∧
    (commit_transaction tx (some .sqliteOperational)).err = none ∧
    (cancel_transaction tx (some .otherStmtErr)).err = some .otherStmtErr ∧
    (commit_transaction tx (some .otherStmtErr)).err = some .otherStmtErr := by
  rcases backend <;> rcases tx <;> rcases stmt with _ | (_ | _) <;>
    simp [cancel_transaction, commit_transaction, noTxVerbStmt]

/-- Witness for C8 at a concrete input: on the embedded backend with no
open transaction, `cancel_transaction` swallows the engine's
`OperationalError` and returns with the flag false. -/
theorem tx_verbs_unconditional_close_witness :
    (cancel_transaction false (noTxVerbStmt .sqlite)).err = none ∧
      (cancel_transaction false (noTxVerbStmt .sqlite)).tx = false :=
  (tx_verbs_unconditional_close .sqlite false none).1

/- ===================== Dependency graph (dependencies.py) ===================== -/

/-- A node of the dependency graph.  In the source, nodes are strings:
full table names in the backtick-quoted `schema`.`table` form, and alias
nodes named `'%d' % next(self._node_alias_count)` — decimal strings that
can never collide with a quoted table name.  The two shapes are embedded
as a tagged sum, table names kept as strings and alias labels as the
counter value they print. -/
inductive Node where
  | table (name : String)
  | aliasNode (id : Nat)
deriving DecidableEq, Repr

/-- Metadata attached to every dependency edge by `load()`
(dependencies.py lines 104-109): the `primary` / `aliased` / `multi`
flags and the ordered referencing-column to referenced-column map. -/
structure EdgeProps where
  primary : Bool
  attr_map : List (String × String)
  aliased : Bool
  multi : Bool
deriving DecidableEq, Repr

/-- The graph state of a `Dependencies` object: nodes with their optional
`primary_key` attribute (alias nodes carry none), and directed edges with
their metadata.  Lists keep insertion order; `addNode` / `addEdge` below
reproduce the networkx update-in-place behaviour, so node and edge keys
stay duplicate-free. -/
structure Graph where
  nodes : List (Node × Option (List String))
  edges : List (Node × Node × EdgeProps)
deriving DecidableEq, Repr

/-- The cleared graph (`self.clear()`). -/
def Graph.empty : Graph := ⟨[], []⟩

/-- Membership test for a node key. -/
def Graph.hasNode (g : Graph) (n : Node) : Bool := g.nodes.any (fun p => p.1 == n)

/-- networkx `add_node`: insert the node if absent; if present, update its
attributes with the supplied keyword attributes (a call without
attributes leaves existing attributes alone). -/
def Graph.addNode (g : Graph) (n : Node) (pk : Option (List String)) : Graph :=
  if g.hasNode n then
    { g with nodes := g.nodes.map (fun p => if p.1 == n then (n, pk.orElse fun _ => p.2) else p) }
  else { g with nodes := g.nodes ++ [(n, pk)] }

/-- Membership test for an edge key (source, target). -/
def Graph.hasEdge (g : Graph) (u v : Node) : Bool :=
  g.edges.any (fun e => e.1 == u && e.2.1 == v)

/-- Insert a node without attributes if it is absent (the implicit node
creation `add_edge` performs for missing endpoints). -/
def Graph.ensureNode (g : Graph) (n : Node) : Graph :=
  if g.hasNode n then g else { g with nodes := g.nodes ++ [(n, none)] }

/-- networkx `add_edge`: silently create missing endpoint nodes (without
attributes), then insert the edge, replacing the data of an existing
(source, target) edge. -/
def Graph.addEdge (g : Graph) (u v : Node) (props : EdgeProps) : Graph :=
  let g2 := (g.ensureNode u).ensureNode v
  if g2.hasEdge u v then
    { g2 with
      edges := g2.edges.map (fun e => if e.1 == u && e.2.1 == v then (u, v, props) else e) }
  else { g2 with edges := g2.edges ++ [(u, v, props)] }

/-- Node keys of the graph, in insertion order. -/
def nodeKeys (g : Graph) : List Node := g.nodes.map (fun p => p.1)

/-- Direct successors of `u`: targets of the edges leaving `u`. -/
def Graph.succList (g : Graph) (u : Node) : List Node :=
  (g.edges.filter (fun e => e.1 == u)).map (fun e => e.2.1)

/-- The edge relation of the graph (ignoring metadata). -/
def edgeRel (g : Graph) (u v : Node) : Prop := ∃ p, (u, v, p) ∈ g.edges

/-- Reachability through at least one edge, the notion behind
`networkx.algorithms.dag.descendants` (and, on the reversed graph,
`ancestors`). -/
def Reaches (g : Graph) : Node → Node → Prop := Relation.TransGen (edgeRel g)

/-- One step of reachability saturation: add every direct successor of a
member. -/
def satStep (g : Graph) (s : Finset Node) : Finset Node :=
  s ∪ s.biUnion (fun u => (g.succList u).toFinset)

/-- Iterate `satStep` until it fixes (with fuel). -/
def iterSat (g : Graph) : Nat → Finset Node → Finset Node
  | 0, s => s
  | n + 1, s => if satStep g s = s then s else iterSat g n (satStep g s)

/-- Modelled from the networkx semantics of
`nx.algorithms.dag.descendants(G, u)` (an external library call): the set
of nodes reachable from `u`, computed by saturating the direct-successor
set.  `u` itself is a member only if it lies on a cycle. -/
def descFinset (g : Graph) (u : Node) : Finset Node :=
  iterSat g g.nodes.length (g.succList u).toFinset

/-- The reversed graph (same nodes, every edge flipped), used to express
`nx.algorithms.dag.ancestors` through `descFinset`. -/
def Graph.reverse (g : Graph) : Graph :=
  ⟨g.nodes, g.edges.map (fun e => (e.2.1, e.1, e.2.2))⟩

/-- Modelled from the networkx semantics of `nx.algorithms.dag.ancestors`:
all nodes with a path to `u`, i.e. the descendants of `u` in the reversed
graph. -/
def ancFinset (g : Graph) (u : Node) : Finset Node := descFinset g.reverse u

/-- Modelled from the networkx semantics of
`nx.is_directed_acyclic_graph`: no node reaches itself. -/
def isAcyclic (g : Graph) : Bool :=
  g.nodes.all (fun p => decide (p.1 ∉ descFinset g p.1))

/-- A foreign key as `load()` assembles it from introspection rows
(dependencies.py lines 77-101): referencing table, referenced table and
the ordered referencing-column to referenced-column map, grouped by
constraint.  The surrounding SQL introspection and the
`schema`.`table` string formatting are I/O plumbing and enter the model
as this already-grouped input. -/
structure FKey where
  referencing_table : String
  referenced_table : String
  attr_map : List (String × String)
deriving DecidableEq, Repr

/-- Boolean subset test on lists viewed as sets. -/
def subsetB (a b : List String) : Bool := a.all (fun x => b.contains x)

/-- Boolean set-equality test on lists viewed as sets (Python `set`
equality is extensional). -/
def setEqB (a b : List String) : Bool := subsetB a b && subsetB b a

/-- The referencing columns of a foreign key: keys of its `attr_map`
(Python `set(fk['attr_map'])`). -/
def attrKeys (m : List (String × String)) : List String := m.map (fun kv => kv.1)

/-- Primary-key lookup with the `defaultdict(set)` default: a table
missing from the mapping has an empty primary-key set. -/
def pkOf (pks : List (String × List String)) (t : String) : List String :=
  match pks.find? (fun p => p.1 == t) with
  | some p => p.2
  | none => []

/-- Edge metadata computed for one foreign key (dependencies.py lines
104-109): `primary` is `set(attr_map) <= set(pks[referencing])`,
`aliased` is `any(k != v ...)`, and `multi` is
`set(attr_map) != set(pks[referencing])`. -/
def mkProps (pks : List (String × List String)) (fk : FKey) : EdgeProps :=
  { primary := subsetB (attrKeys fk.attr_map) (pkOf pks fk.referencing_table),
    attr_map := fk.attr_map,
    aliased := fk.attr_map.any (fun kv => !(kv.1 == kv.2)),
    multi := !(setEqB (attrKeys fk.attr_map) (pkOf pks fk.referencing_table)) }

/-- Edge insertion for one foreign key (dependencies.py lines 110-117),
threading the alias counter: a non-aliased key adds the direct
referenced-to-referencing edge; an aliased key allocates a fresh alias
node and adds the two edges through it, both with the same metadata. -/
def addFK (pks : List (String × List String)) (gc : Graph × Nat) (fk : FKey) : Graph × Nat :=
  let props := mkProps pks fk
  if props.aliased = false then
    (gc.1.addEdge (.table fk.referenced_table) (.table fk.referencing_table) props, gc.2)
  else
    ((((gc.1.addNode (.aliasNode gc.2) none).addEdge
        (.table fk.referenced_table) (.aliasNode gc.2) props).addEdge
        (.aliasNode gc.2) (.table fk.referencing_table) props), gc.2 + 1)

/-- How a `load()` call can fail: the plain `raise Exception(...)` guarding
multiple schemas on the embedded backend, or the `DataJointError` for a
cyclic dependency graph. -/
inductive LoadErr where
  | plainExn
  | djErr
deriving DecidableEq, Repr

/-- Observable result of `load()`: the graph state on exit (the object is
mutated in place, so it is defined even when an error is raised), the
alias counter on exit, and the error raised (if any). -/
structure LoadResult where
  graph : Graph
  counter : Nat
  err : Option LoadErr
deriving DecidableEq, Repr

/-- Embedding of `Dependencies.load` (dependencies.py lines 21-120).
`schemaCount` is `len(self._conn.schemas)`; `pks` the per-table
primary-key columns produced by the backend-specific introspection query;
`fks` the grouped foreign keys; `counter` the alias counter
`_node_alias_count` carried over from the instance (set at `__init__`,
NOT reset by `self.clear()`).  Steps: clear the graph; on the embedded
backend with more than one registered schema raise a plain `Exception`
before anything is added; add one node per table with its primary key;
insert edges per foreign key; finally raise `DataJointError` if the
result is not acyclic. -/
def load (backend : Backend) (schemaCount : Nat) (pks : List (String × List String))
    (fks : List FKey) (counter : Nat) : LoadResult :=
  if backend = .sqlite ∧ schemaCount > 1 then ⟨Graph.empty, counter, some .plainExn⟩
  else
    let g1 := pks.foldl (fun g p => g.addNode (.table p.1) (some p.2)) Graph.empty
    let gc := fks.foldl (addFK pks) (g1, counter)
    if isAcyclic gc.1 then ⟨gc.1, gc.2, none⟩ else ⟨gc.1, gc.2, some .djErr⟩

/-- Embedding of `Dependencies.parents` (dependencies.py lines 122-131):
the in-edges of `t`, optionally filtered on the `primary` flag, as
(source node, edge metadata) pairs — the dict the source builds, with its
keys in edge order (in-edge sources are distinct, so no dict-key
collapsing occurs). -/
def parents (g : Graph) (t : Node) (primary : Option Bool) : List (Node × EdgeProps) :=
  (g.edges.filter (fun e =>
      e.2.1 == t &&
        match primary with
        | none => true
        | some b => e.2.2.primary == b)).map (fun e => (e.1, e.2.2))

/-- Embedding of `Dependencies.children` (dependencies.py lines 133-142):
the out-edges of `t`, optionally filtered on the `primary` flag. -/
def children (g : Graph) (t : Node) (primary : Option Bool) : List (Node × EdgeProps) :=
  (g.edges.filter (fun e =>
      e.1 == t &&
        match primary with
        | none => true
        | some b => e.2.2.primary == b)).map (fun e => (e.2.1, e.2.2))

/-- Pick the first remaining node with no incoming edge from a remaining
node — the selection step of a Kahn-style topological sort, modelling the
semantics of `nx.algorithms.dag.topological_sort`. -/
def pickSource (g : Graph) (remaining : List Node) : Option Node :=
  remaining.find? (fun v =>
    !(g.edges.any (fun e => e.2.1 == v && remaining.contains e.1)))

/-- Kahn-style topological sort with fuel: repeatedly emit a source of the
remaining subgraph.  On acyclic input with enough fuel this is a
permutation of `remaining`; on a cycle networkx raises instead (the model
stops — `load` guarantees the graphs it is used on are acyclic). -/
def topoAux (g : Graph) : Nat → List Node → List Node
  | 0, _ => []
  | fuel + 1, remaining =>
    match pickSource g remaining with
    | none => []
    | some v => v :: topoAux g fuel (remaining.erase v)

/-- Topological sort of a whole graph. -/
def topoSort (g : Graph) : List Node := topoAux g g.nodes.length (nodeKeys g)

/-- Modelled from the networkx semantics of `DiGraph.subgraph`: restrict
nodes and edges to the given node set. -/
def subgraphOn (g : Graph) (s : Finset Node) : Graph :=
  ⟨g.nodes.filter (fun p => decide (p.1 ∈ s)),
    g.edges.filter (fun e => decide (e.1 ∈ s) && decide (e.2.1 ∈ s))⟩

/-- Embedding of `Dependencies.descendants` (dependencies.py lines
144-153): the table itself, followed by a topological sort of the
subgraph induced by its reachable successors. -/
def descendants (g : Graph) (t : String) : List Node :=
  Node.table t :: topoSort (subgraphOn g (descFinset g (.table t)))

/-- Embedding of `Dependencies.ancestors` (dependencies.py lines
155-163): the table itself, followed by the REVERSED topological sort of
the subgraph induced by the nodes that reach it. -/
def ancestors (g : Graph) (t : String) : List Node :=
  Node.table t :: (topoSort (subgraphOn g (ancFinset g (.table t)))).reverse

/- ===================== Edge-origin lemmas for load ===================== -/

lemma ensureNode_edges (g : Graph) (n : Node) : (g.ensureNode n).edges = g.edges := by
  unfold Graph.ensureNode
  split <;> rfl

lemma addNode_edges (g : Graph) (n : Node) (pk : Option (List String)) :
    (g.addNode n pk).edges = g.edges := by
  unfold Graph.addNode
  split <;> rfl

lemma addEdge_edges_subset (g : Graph) (u v : Node) (p : EdgeProps) :
    ∀ e ∈ (g.addEdge u v p).edges, e = (u, v, p) ∨ e ∈ g.edges := by
  intro e he
  unfold Graph.addEdge at he
  have h2 : ((g.ensureNode u).ensureNode v).edges = g.edges := by
    rw [ensureNode_edges, ensureNode_edges]
  dsimp only at he
  split at he
  · rw [h2] at he
    simp only [List.mem_map] at he
    obtain ⟨a, ha, hae⟩ := he
    by_cases hc : (a.1 == u && a.2.1 == v) = true
    · rw [if_pos hc] at hae
      exact Or.inl hae.symm
    · rw [if_neg hc] at hae
      exact Or.inr (hae ▸ ha)
  · rw [h2] at he
    rcases List.mem_append.mp he with h | h
    · exact Or.inr h
    · exact Or.inl (List.mem_singleton.mp h)

lemma addFK_edges_subset (pks : List (String × List String)) (fk : FKey) (gc : Graph × Nat) :
    ∀ e ∈ (addFK pks gc fk).1.edges, e.2.2 = mkProps pks fk ∨ e ∈ gc.1.edges := by
  intro e he
  unfold addFK at he
  dsimp only at he
  split at he
  · rcases addEdge_edges_subset _ _ _ _ e he with h | h
    · exact Or.inl (by rw [h])
    · exact Or.inr h
  · rcases addEdge_edges_subset _ _ _ _ e he with h | h
    · exact Or.inl (by rw [h])
    · rcases addEdge_edges_subset _ _ _ _ e h with h2 | h2
      · exact Or.inl (by rw [h2])
      · rw [addNode_edges] at h2
        exact Or.inr h2

lemma foldl_addFK_edges (pks : List (String × List String)) :
    ∀ (l : List FKey) (gc : Graph × Nat), ∀ e ∈ (l.foldl (addFK pks) gc).1.edges,
      (∃ fk ∈ l, e.2.2 = mkProps pks fk) ∨ e ∈ gc.1.edges := by
  intro l
  induction l with
  | nil => intro gc e he; exact Or.inr he
  | cons fk rest ih =>
    intro gc e he
    rw [List.foldl_cons] at he
    rcases ih (addFK pks gc fk) e he with ⟨fk1, hfk1, hp⟩ | hmem
    · exact Or.inl ⟨fk1, List.mem_cons_of_mem _ hfk1, hp⟩
    · rcases addFK_edges_subset pks fk gc e hmem with hp | hmem2
      · exact Or.inl ⟨fk, List.mem_cons_self _ _, hp⟩
      · exact Or.inr hmem2

lemma foldl_addNode_edges :
    ∀ (l : List (String × List String)) (g : Graph),
      (l.foldl (fun g p => Graph.addNode g (.table p.1) (some p.2)) g).edges = g.edges := by
  intro l
  induction l with
  | nil => intro g; rfl
  | cons p rest ih =>
    intro g
    rw [List.foldl_cons, ih, addNode_edges]

/-- Every edge the graph holds after `load` carries the metadata computed
for one of the processed foreign keys. -/
lemma load_edges_from_fks (backend : Backend) (sc : Nat)
    (pks : List (String × List String)) (fks : List FKey) (c : Nat) :
    ∀ e ∈ (load backend sc pks fks c).graph.edges, ∃ fk ∈ fks, e.2.2 = mkProps pks fk := by
  intro e he
  unfold load at he
  dsimp only at he
  split at he
  · simp [Graph.empty] at he
  · split at he <;>
    · dsimp only at he
      rcases foldl_addFK_edges pks fks _ e he with h | h
      · exact h
      · rw [foldl_addNode_edges] at h
        simp [Graph.empty] at h

/-- C10: on the embedded backend with more than one registered schema,
`load` raises the plain, unclassified `Exception` (not the
`DataJointError` of the taxonomy) with the freshly cleared graph still
empty — no node or edge has been added — and the alias counter untouched;
the networked backend never raises this error. -/
theorem load_sqlite_multi_schema_plain_exception (sc : Nat)
    (pks : List (String × List String)) (fks : List FKey) (c : Nat)
    (h : sc > 1) :
    load .sqlite sc pks fks c = ⟨Graph.empty, c, some .plainExn⟩ ∧
    Graph.empty.nodes = [] ∧ Graph.empty.edges = [] ∧
    LoadErr.plainExn ≠ LoadErr.djErr ∧
    (∀ sc2 pks2 fks2 c2, (load .mysql sc2 pks2 fks2 c2).err ≠ some .plainExn) := by
  refine ⟨by simp [load, h], rfl, rfl, by decide, ?_⟩
  intro sc2 pks2 fks2 c2
  unfold load
  dsimp only
  rw [if_neg (by simp)]
  split <;> simp

/-- Witness for C10 at a concrete input: two registered schemas on the
embedded backend. -/
theorem load_sqlite_multi_schema_plain_exception_witness :
    load .sqlite 2 [("T", ["a"])] [] 5 = ⟨Graph.empty, 5, some .plainExn⟩ :=
  (load_sqlite_multi_schema_plain_exception 2 [("T", ["a"])] [] 5 (by decide)).1

/-- C2 counterexample: a foreign key whose referencing column set is NOT a
subset of the referencing table's primary key.  `load` stores its edge
with `multi = true`, yet the referencing columns are not a strict subset
of the primary key — refuting "multi is true iff the referencing columns
are a strict subset of the referencing table's primary key".  (The code
computes `multi` as set INEQUALITY, not strict inclusion.) -/
theorem load_multi_flag_counterexample :
    (load .mysql 1 [("B", ["b"])] [⟨"B", "A", [("a", "a")]⟩] 0).err = none ∧
    (load .mysql 1 [("B", ["b"])] [⟨"B", "A", [("a", "a")]⟩] 0).graph.edges =
      [(.table "A", .table "B", mkProps [("B", ["b"])] ⟨"B", "A", [("a", "a")]⟩)] ∧
    (mkProps [("B", ["b"])] ⟨"B", "A", [("a", "a")]⟩).multi = true ∧
    ¬((attrKeys [("a", "a")]).toFinset ⊂ (pkOf [("B", ["b"])] "B").toFinset) := by
  refine ⟨by decide, by decide, by decide, ?_⟩
  decide

/-- C2 (amended): every edge `load` stores carries the metadata computed
for one of the processed foreign keys, and that metadata satisfies:
`primary` iff the referencing columns are a subset of the referencing
table's primary key; `aliased` iff some referencing column name differs
from the referenced column it maps to; `multi` iff the referencing column
set DIFFERS from the primary-key set (which, whenever `primary` holds,
coincides with being a strict subset of the primary key). -/
theorem load_edge_metadata (backend : Backend) (sc : Nat)
    (pks : List (String × List String)) (fks : List FKey) (c : Nat) :
    (∀ e ∈ (load backend sc pks fks c).graph.edges, ∃ fk ∈ fks, e.2.2 = mkProps pks fk) ∧
    (∀ fk, fk ∈ fks →
      ((mkProps pks fk).primary = true ↔
        (attrKeys fk.attr_map).toFinset ⊆ (pkOf pks fk.referencing_table).toFinset) ∧
      ((mkProps pks fk).aliased = true ↔ ∃ kv ∈ fk.attr_map, kv.1 ≠ kv.2) ∧
      ((mkProps pks fk).multi = true ↔
        (attrKeys fk.attr_map).toFinset ≠ (pkOf pks fk.referencing_table).toFinset) ∧
      ((mkProps pks fk).primary = true →
        ((mkProps pks fk).multi = true ↔
          (attrKeys fk.attr_map).toFinset ⊂ (pkOf pks fk.referencing_table).toFinset))) := by
  constructor
  · exact load_edges_from_fks backend sc pks fks c
  · intro fk _
    have hsub : ∀ a b : List String, (subsetB a b = true) ↔ a.toFinset ⊆ b.toFinset := by
      intro a b
      simp [subsetB, Finset.subset_iff]
    have hprim :
        (mkProps pks fk).primary = true ↔
          (attrKeys fk.attr_map).toFinset ⊆ (pkOf pks fk.referencing_table).toFinset := by
      simpa [mkProps] using hsub (attrKeys fk.attr_map) (pkOf pks fk.referencing_table)
    have hmulti :
        (mkProps pks fk).multi = true ↔
          (attrKeys fk.attr_map).toFinset ≠ (pkOf pks fk.referencing_table).toFinset := by
      simp only [mkProps, Bool.not_eq_true']
      rw [Bool.eq_false_iff]
      constructor
      · intro hne heq
        refine hne ?_
        simp only [setEqB, Bool.and_eq_true]
        exact ⟨(hsub _ _).mpr heq.le, (hsub _ _).mpr heq.ge⟩
      · intro hne hc
        simp only [setEqB, Bool.and_eq_true] at hc
        exact hne (le_antisymm ((hsub _ _).mp hc.1) ((hsub _ _).mp hc.2))
    refine ⟨hprim, ?_, hmulti, ?_⟩
    · simp [mkProps]
    · intro hp
      rw [hmulti, Finset.ssubset_iff_subset_ne]
      have := hprim.mp hp
      tauto

/- ===================== C6: aliased foreign keys ===================== -/

lemma ensureNode_hasEdge (g : Graph) (n u v : Node) :
    (g.ensureNode n).hasEdge u v = g.hasEdge u v := by
  unfold Graph.hasEdge
  rw [ensureNode_edges]

lemma addEdge_edges_of_not_hasEdge (g : Graph) (u v : Node) (p : EdgeProps)
    (h : g.hasEdge u v = false) :
    (g.addEdge u v p).edges = g.edges ++ [(u, v, p)] := by
  unfold Graph.addEdge
  dsimp only
  rw [ensureNode_hasEdge, ensureNode_hasEdge, h]
  simp [ensureNode_edges]

lemma hasEdge_false_of_fresh_target (g : Graph) (c : Nat) (u : Node)
    (hfresh : ∀ e ∈ g.edges, e.2.1 ≠ Node.aliasNode c) :
    g.hasEdge u (.aliasNode c) = false := by
  unfold Graph.hasEdge
  rw [List.any_eq_false]
  intro e he
  simp only [Bool.and_eq_true, beq_iff_eq, not_and]
  intro _ hv
  exact hfresh e he hv

lemma hasEdge_false_of_fresh_source (g : Graph) (c : Nat) (v : Node)
    (hfresh : ∀ e ∈ g.edges, e.1 ≠ Node.aliasNode c) :
    g.hasEdge (.aliasNode c) v = false := by
  unfold Graph.hasEdge
  rw [List.any_eq_false]
  intro e he
  simp only [Bool.and_eq_true, beq_iff_eq, not_and]
  intro hu
  exact absurd hu (hfresh e he)

/-- C6: for every aliased foreign key processed with a fresh alias label,
exactly the two edges referenced-to-alias and alias-to-referencing are
appended, both carrying the identical computed metadata, the alias
counter advances, and no direct referenced-to-referencing edge appears
that was not already present; in the concrete two-foreign-key example
(`A.id ← B.owner_id`, `A.id ← B.editor_id`) `load` yields two distinct
alias nodes and `parents(B)` returns two entries, each of which resolves
to `A` through its alias node. -/
theorem aliased_fk_two_edges (pks : List (String × List String)) (fk : FKey)
    (g : Graph) (c : Nat)
    (hali : (mkProps pks fk).aliased = true)
    (hfresh : ∀ e ∈ g.edges, e.1 ≠ Node.aliasNode c ∧ e.2.1 ≠ Node.aliasNode c) :
    ((addFK pks (g, c) fk).2 = c + 1 ∧
      (addFK pks (g, c) fk).1.edges =
        g.edges ++ [(.table fk.referenced_table, .aliasNode c, mkProps pks fk),
          (.aliasNode c, .table fk.referencing_table, mkProps pks fk)] ∧
      (∀ p : EdgeProps,
        (Node.table fk.referenced_table, Node.table fk.referencing_table, p) ∈
            (addFK pks (g, c) fk).1.edges ↔
          (Node.table fk.referenced_table, Node.table fk.referencing_table, p) ∈ g.edges)) ∧
    ((load .mysql 1 [("A", ["id"]), ("B", ["bid"])]
        [⟨"B", "A", [("owner_id", "id")]⟩, ⟨"B", "A", [("editor_id", "id")]⟩] 0).err = none ∧
      parents (load .mysql 1 [("A", ["id"]), ("B", ["bid"])]
          [⟨"B", "A", [("owner_id", "id")]⟩, ⟨"B", "A", [("editor_id", "id")]⟩] 0).graph
          (.table "B") none =
        [(.aliasNode 0, mkProps [("A", ["id"]), ("B", ["bid"])] ⟨"B", "A", [("owner_id", "id")]⟩),
          (.aliasNode 1, mkProps [("A", ["id"]), ("B", ["bid"])] ⟨"B", "A", [("editor_id", "id")]⟩)] ∧
      Node.aliasNode 0 ≠ Node.aliasNode 1 ∧
      parents (load .mysql 1 [("A", ["id"]), ("B", ["bid"])]
          [⟨"B", "A", [("owner_id", "id")]⟩, ⟨"B", "A", [("editor_id", "id")]⟩] 0).graph
          (.aliasNode 0) none =
        [(.table "A", mkProps [("A", ["id"]), ("B", ["bid"])] ⟨"B", "A", [("owner_id", "id")]⟩)] ∧
      parents (load .mysql 1 [("A", ["id"]), ("B", ["bid"])]
          [⟨"B", "A", [("owner_id", "id")]⟩, ⟨"B", "A", [("editor_id", "id")]⟩] 0).graph
          (.aliasNode 1) none =
        [(.table "A", mkProps [("A", ["id"]), ("B", ["bid"])] ⟨"B", "A", [("editor_id", "id")]⟩)]) := by
  have hedges : (addFK pks (g, c) fk).1.edges =
      g.edges ++ [(.table fk.referenced_table, .aliasNode c, mkProps pks fk),
        (.aliasNode c, .table fk.referencing_table, mkProps pks fk)] := by
    unfold addFK
    dsimp only
    rw [if_neg (by simp [hali])]
    have h1 : (g.addNode (.aliasNode c) none).edges = g.edges := addNode_edges g _ none
    have hte : ((g.addNode (.aliasNode c) none).addEdge
        (.table fk.referenced_table) (.aliasNode c) (mkProps pks fk)).edges =
        g.edges ++ [(.table fk.referenced_table, .aliasNode c, mkProps pks fk)] := by
      rw [addEdge_edges_of_not_hasEdge, h1]
      apply hasEdge_false_of_fresh_target
      intro e he
      rw [h1] at he
      exact (hfresh e he).2
    rw [addEdge_edges_of_not_hasEdge, hte, List.append_assoc]
    · rfl
    · apply hasEdge_false_of_fresh_source
      intro e he
      rw [hte] at he
      rcases List.mem_append.mp he with h | h
      · exact (hfresh e h).1
      · rw [List.mem_singleton.mp h]
        simp
  refine ⟨⟨?_, hedges, ?_⟩, by decide, by decide, by decide, by decide, by decide⟩
  · unfold addFK
    dsimp only
    rw [if_neg (by simp [hali])]
  · intro p
    rw [hedges]
    simp

/-- Witness for C2 (amended) at a concrete input: a one-column foreign key
on table `B` whose primary key is two columns — a strict subset, so
`multi` and `primary` both hold. -/
theorem load_edge_metadata_witness :
    (mkProps [("B", ["a", "b"])] ⟨"B", "A", [("a", "a")]⟩).multi = true ∧
    (mkProps [("B", ["a", "b"])] ⟨"B", "A", [("a", "a")]⟩).primary = true := by
  have h := (load_edge_metadata .mysql 1 [("B", ["a", "b"])] [⟨"B", "A", [("a", "a")]⟩] 0).2
    ⟨"B", "A", [("a", "a")]⟩ (by simp)
  exact ⟨(h.2.2.1).mpr (by decide), (h.1).mpr (by decide)⟩

/-- Witness for C6 at a concrete input: the first foreign key of the
two-key example, inserted into the empty cleared graph with alias
counter 0. -/
theorem aliased_fk_two_edges_witness :
    (addFK [("A", ["id"]), ("B", ["bid"])] (Graph.empty, 0)
        ⟨"B", "A", [("owner_id", "id")]⟩).2 = 1 ∧
    (addFK [("A", ["id"]), ("B", ["bid"])] (Graph.empty, 0)
        ⟨"B", "A", [("owner_id", "id")]⟩).1.edges =
      [(.table "A", .aliasNode 0,
          mkProps [("A", ["id"]), ("B", ["bid"])] ⟨"B", "A", [("owner_id", "id")]⟩),
        (.aliasNode 0, .table "B",
          mkProps [("A", ["id"]), ("B", ["bid"])] ⟨"B", "A", [("owner_id", "id")]⟩)] := by
  have h := aliased_fk_two_edges [("A", ["id"]), ("B", ["bid"])]
    ⟨"B", "A", [("owner_id", "id")]⟩ Graph.empty 0 (by decide)
    (by intro e he; exact absurd he (List.not_mem_nil e))
  exact ⟨h.1.1, h.1.2.1⟩

/- ===================== C3: reloads and the alias counter ===================== -/

/-- Shift every alias label by `k`, leaving table nodes untouched: the
relabelling relating two `load` runs whose alias counters differ by `k`. -/
def mapNode (k : Nat) : Node → Node
  | .table s => .table s
  | .aliasNode i => .aliasNode (i + k)

/-- Apply an alias-label shift to a whole graph. -/
def mapGraph (k : Nat) (g : Graph) : Graph :=
  ⟨g.nodes.map (fun p => (mapNode k p.1, p.2)),
    g.edges.map (fun e => (mapNode k e.1, mapNode k e.2.1, e.2.2))⟩

lemma mapGraph_nodes (k : Nat) (g : Graph) :
    (mapGraph k g).nodes = g.nodes.map (fun p => (mapNode k p.1, p.2)) := rfl

lemma mapGraph_edges (k : Nat) (g : Graph) :
    (mapGraph k g).edges = g.edges.map (fun e => (mapNode k e.1, mapNode k e.2.1, e.2.2)) := rfl

lemma mapNode_beq (k : Nat) (a b : Node) : (mapNode k a == mapNode k b) = (a == b) := by
  cases a <;> cases b <;> simp [mapNode]

lemma mapNode_injective (k : Nat) : Function.Injective (mapNode k) := by
  intro a b h
  cases a <;> cases b <;> simp [mapNode] at h <;> simp [h]

lemma hasNode_mapGraph (k : Nat) (g : Graph) (n : Node) :
    (mapGraph k g).hasNode (mapNode k n) = g.hasNode n := by
  unfold Graph.hasNode
  rw [mapGraph_nodes, List.any_map]
  congr 1
  funext p
  exact mapNode_beq k p.1 n

lemma ensureNode_mapGraph (k : Nat) (g : Graph) (n : Node) :
    (mapGraph k g).ensureNode (mapNode k n) = mapGraph k (g.ensureNode n) := by
  unfold Graph.ensureNode
  rw [hasNode_mapGraph]
  split
  · rfl
  · simp [mapGraph]

lemma addNode_mapGraph (k : Nat) (g : Graph) (n : Node) (pk : Option (List String)) :
    (mapGraph k g).addNode (mapNode k n) pk = mapGraph k (g.addNode n pk) := by
  unfold Graph.addNode
  rw [hasNode_mapGraph]
  split
  · unfold mapGraph
    dsimp only
    congr 1
    rw [List.map_map, List.map_map]
    congr 1
    funext p
    dsimp only [Function.comp]
    rw [mapNode_beq]
    by_cases h : (p.1 == n) = true
    · rw [if_pos h, if_pos h]
    · rw [if_neg h, if_neg h]
  · simp [mapGraph]

lemma hasEdge_mapGraph (k : Nat) (g : Graph) (u v : Node) :
    (mapGraph k g).hasEdge (mapNode k u) (mapNode k v) = g.hasEdge u v := by
  unfold Graph.hasEdge
  rw [mapGraph_edges, List.any_map]
  congr 1
  funext e
  dsimp only [Function.comp]
  rw [mapNode_beq, mapNode_beq]

lemma addEdge_mapGraph (k : Nat) (g : Graph) (u v : Node) (p : EdgeProps) :
    (mapGraph k g).addEdge (mapNode k u) (mapNode k v) p = mapGraph k (g.addEdge u v p) := by
  unfold Graph.addEdge
  dsimp only
  rw [ensureNode_mapGraph, ensureNode_mapGraph, hasEdge_mapGraph]
  split
  · unfold mapGraph
    dsimp only
    congr 1
    rw [List.map_map, List.map_map]
    congr 1
    funext e
    dsimp only [Function.comp]
    rw [mapNode_beq, mapNode_beq]
    by_cases h : (e.1 == u && e.2.1 == v) = true
    · rw [if_pos h, if_pos h]
    · rw [if_neg h, if_neg h]
  · simp [mapGraph]

lemma addFK_mapGraph (pks : List (String × List String)) (k : Nat) (fk : FKey)
    (g : Graph) (c : Nat) :
    addFK pks (mapGraph k g, c + k) fk =
      (mapGraph k (addFK pks (g, c) fk).1, (addFK pks (g, c) fk).2 + k) := by
  unfold addFK
  dsimp only
  split
  · have he := addEdge_mapGraph k g (.table fk.referenced_table)
      (.table fk.referencing_table) (mkProps pks fk)
    simp only [mapNode] at he
    rw [he]
  · have hn := addNode_mapGraph k g (.aliasNode c) none
    have he1 := addEdge_mapGraph k (g.addNode (.aliasNode c) none)
      (.table fk.referenced_table) (.aliasNode c) (mkProps pks fk)
    have he2 := addEdge_mapGraph k
      ((g.addNode (.aliasNode c) none).addEdge (.table fk.referenced_table)
        (.aliasNode c) (mkProps pks fk))
      (.aliasNode c) (.table fk.referencing_table) (mkProps pks fk)
    simp only [mapNode] at hn he1 he2
    rw [hn, he1, he2]
    simp only [Prod.mk.injEq]
    refine ⟨?_, by omega⟩
    trivial

lemma foldl_addFK_mapGraph (pks : List (String × List String)) (k : Nat) :
    ∀ (l : List FKey) (g : Graph) (c : Nat),
      l.foldl (addFK pks) (mapGraph k g, c + k) =
        (mapGraph k (l.foldl (addFK pks) (g, c)).1, (l.foldl (addFK pks) (g, c)).2 + k) := by
  intro l
  induction l with
  | nil => intro g c; rfl
  | cons fk rest ih =>
    intro g c
    rw [List.foldl_cons, List.foldl_cons, addFK_mapGraph]
    have h := ih (addFK pks (g, c) fk).1 (addFK pks (g, c) fk).2
    simpa using h

lemma mapGraph_table_fold (k : Nat) :
    ∀ (l : List (String × List String)) (g : Graph), mapGraph k g = g →
      mapGraph k (l.foldl (fun g p => Graph.addNode g (.table p.1) (some p.2)) g) =
        l.foldl (fun g p => Graph.addNode g (.table p.1) (some p.2)) g := by
  intro l
  induction l with
  | nil => intro g h; exact h
  | cons p rest ih =>
    intro g h
    apply ih
    have hadd := addNode_mapGraph k g (.table p.1) (some p.2)
    simp only [mapNode] at hadd
    rw [h] at hadd
    exact hadd.symm

lemma list_toFinset_map (f : Node → Node) (l : List Node) :
    (l.map f).toFinset = l.toFinset.image f := by
  ext x
  simp

lemma succList_mapGraph (k : Nat) (g : Graph) (u : Node) :
    (mapGraph k g).succList (mapNode k u) = (g.succList u).map (mapNode k) := by
  unfold Graph.succList
  rw [mapGraph_edges]
  induction g.edges with
  | nil => rfl
  | cons e rest ih =>
    simp only [List.map_cons, List.filter_cons]
    rw [mapNode_beq]
    by_cases h : (e.1 == u) = true
    · simp only [h, if_pos, List.map_cons]
      rw [ih]
    · simp only [h, Bool.false_eq_true, if_neg, if_false]
      exact ih

lemma satStep_mapGraph (k : Nat) (g : Graph) (s : Finset Node) :
    satStep (mapGraph k g) (s.image (mapNode k)) = (satStep g s).image (mapNode k) := by
  unfold satStep
  rw [Finset.image_union]
  congr 1
  rw [Finset.image_biUnion, Finset.biUnion_image]
  apply Finset.biUnion_congr rfl
  intro u _
  rw [succList_mapGraph, list_toFinset_map]

lemma iterSat_mapGraph (k : Nat) (g : Graph) :
    ∀ (fuel : Nat) (s : Finset Node),
      iterSat (mapGraph k g) fuel (s.image (mapNode k)) =
        (iterSat g fuel s).image (mapNode k) := by
  intro fuel
  induction fuel with
  | zero => intro s; rfl
  | succ n ih =>
    intro s
    simp only [iterSat]
    rw [satStep_mapGraph]
    by_cases h : satStep g s = s
    · rw [h, if_pos rfl, if_pos rfl]
    · have hne : (satStep g s).image (mapNode k) ≠ s.image (mapNode k) := by
        intro hc
        exact h (Finset.image_injective (mapNode_injective k) hc)
      rw [if_neg hne, if_neg h, ih]

lemma descFinset_mapGraph (k : Nat) (g : Graph) (u : Node) :
    descFinset (mapGraph k g) (mapNode k u) = (descFinset g u).image (mapNode k) := by
  unfold descFinset
  rw [succList_mapGraph, list_toFinset_map, iterSat_mapGraph]
  congr 1
  rw [mapGraph_nodes, List.length_map]

lemma isAcyclic_mapGraph (k : Nat) (g : Graph) :
    isAcyclic (mapGraph k g) = isAcyclic g := by
  unfold isAcyclic
  rw [mapGraph_nodes, List.all_map]
  congr 1
  funext p
  dsimp only [Function.comp]
  rw [decide_eq_decide, descFinset_mapGraph, not_iff_not]
  constructor
  · intro hm
    obtain ⟨a, ha, hae⟩ := Finset.mem_image.mp hm
    rwa [mapNode_injective k hae] at ha
  · intro hm
    exact Finset.mem_image_of_mem _ hm

/-- Test for the alias-node shape. -/
def isAliasLabel : Node → Bool
  | .aliasNode _ => true
  | .table _ => false

/-- Number of alias nodes in the graph. -/
def aliasCount (g : Graph) : Nat :=
  (g.nodes.filter (fun p => isAliasLabel p.1)).length

lemma isAliasLabel_mapNode (k : Nat) (n : Node) :
    isAliasLabel (mapNode k n) = isAliasLabel n := by
  cases n <;> rfl

lemma aliasCount_mapGraph (k : Nat) (g : Graph) :
    aliasCount (mapGraph k g) = aliasCount g := by
  unfold aliasCount
  rw [mapGraph_nodes]
  induction g.nodes with
  | nil => rfl
  | cons p rest ih =>
    simp only [List.map_cons, List.filter_cons, isAliasLabel_mapNode]
    by_cases h : isAliasLabel p.1 = true
    · simp only [h, if_pos, List.length_cons, ih]
    · simp only [h, Bool.false_eq_true, if_neg, if_false, ih]

lemma tableKey_mapGraph (k : Nat) (g : Graph) (s : String) :
    Node.table s ∈ nodeKeys (mapGraph k g) ↔ Node.table s ∈ nodeKeys g := by
  unfold nodeKeys
  rw [mapGraph_nodes, List.map_map]
  simp only [List.mem_map, Function.comp]
  constructor
  · rintro ⟨p, hp, he⟩
    refine ⟨p, hp, ?_⟩
    cases hn : p.1 with
    | table t => rw [hn] at he; exact he
    | aliasNode i => rw [hn] at he; exact absurd he (by simp [mapNode])
  · rintro ⟨p, hp, he⟩
    refine ⟨p, hp, ?_⟩
    rw [he]
    rfl

/-- `load` at a shifted alias counter: the result is the alias-shifted
graph, the shifted counter, and the identical error. -/
lemma load_shift (backend : Backend) (sc : Nat) (pks : List (String × List String))
    (fks : List FKey) (c k : Nat) :
    load backend sc pks fks (c + k) =
      ⟨mapGraph k (load backend sc pks fks c).graph,
        (load backend sc pks fks c).counter + k,
        (load backend sc pks fks c).err⟩ := by
  unfold load
  dsimp only
  split
  · rfl
  · have hg1 := mapGraph_table_fold k pks Graph.empty rfl
    have hf := foldl_addFK_mapGraph pks k fks
      (pks.foldl (fun g p => Graph.addNode g (.table p.1) (some p.2)) Graph.empty) c
    rw [hg1] at hf
    rw [hf]
    rw [isAcyclic_mapGraph]
    split <;> rfl

/-- C3 (amended): two `load` calls on identical introspection results are
isomorphic, but NOT node-identical in general: the second run's graph is
exactly the first run's graph with every alias label shifted by the
difference of the starting counters (an injective relabelling that fixes
all table nodes), the errors agree, the counters differ by the same
shift, and the alias-node counts are equal — so no duplicate or extra
alias nodes accumulate across reloads even though `load` clears only the
nodes and edges and never resets the alias counter. -/
theorem load_reload_isomorphic (backend : Backend) (sc : Nat)
    (pks : List (String × List String)) (fks : List FKey) (c1 c2 : Nat)
    (h : c1 ≤ c2) :
    (load backend sc pks fks c2).graph =
      mapGraph (c2 - c1) (load backend sc pks fks c1).graph ∧
    Function.Injective (mapNode (c2 - c1)) ∧
    (∀ s, mapNode (c2 - c1) (Node.table s) = Node.table s) ∧
    (load backend sc pks fks c2).err = (load backend sc pks fks c1).err ∧
    (load backend sc pks fks c2).counter =
      (load backend sc pks fks c1).counter + (c2 - c1) ∧
    (∀ s, Node.table s ∈ nodeKeys (load backend sc pks fks c2).graph ↔
      Node.table s ∈ nodeKeys (load backend sc pks fks c1).graph) ∧
    aliasCount (load backend sc pks fks c2).graph =
      aliasCount (load backend sc pks fks c1).graph := by
  have hc : c2 = c1 + (c2 - c1) := by omega
  have hs := load_shift backend sc pks fks c1 (c2 - c1)
  rw [← hc] at hs
  refine ⟨by rw [hs], mapNode_injective _, fun s => rfl, by rw [hs], by rw [hs], ?_, ?_⟩
  · intro s
    rw [hs]
    exact tableKey_mapGraph _ _ s
  · rw [hs]
    exact aliasCount_mapGraph _ _

/-- C3 counterexample: one aliased foreign key; the second `load` (at the
counter the first one left behind) produces a different node set — the
alias node is labelled 1 instead of 0 — and the counter is not reset to 0
by `load`, refuting "same nodes ... because load() first clears all node,
edge, and alias-counter state". -/
theorem load_reload_nodes_differ_counterexample :
    (load .mysql 1 [("A", ["id"]), ("B", ["bid"])] [⟨"B", "A", [("owner_id", "id")]⟩]
        ((load .mysql 1 [("A", ["id"]), ("B", ["bid"])]
          [⟨"B", "A", [("owner_id", "id")]⟩] 0).counter)).graph.nodes ≠
      (load .mysql 1 [("A", ["id"]), ("B", ["bid"])]
        [⟨"B", "A", [("owner_id", "id")]⟩] 0).graph.nodes ∧
    (load .mysql 1 [("A", ["id"]), ("B", ["bid"])]
        [⟨"B", "A", [("owner_id", "id")]⟩] 0).counter = 1 := by
  refine ⟨?_, by decide⟩
  decide

/-- Witness for C3 (amended) at a concrete input: reloading the one-key
aliased schema at the counter left by the first load yields the
alias-shifted graph and the same (absent) error. -/
theorem load_reload_isomorphic_witness :
    (load .mysql 1 [("A", ["id"]), ("B", ["bid"])] [⟨"B", "A", [("owner_id", "id")]⟩] 1).graph =
      mapGraph 1 (load .mysql 1 [("A", ["id"]), ("B", ["bid"])]
        [⟨"B", "A", [("owner_id", "id")]⟩] 0).graph ∧
    aliasCount (load .mysql 1 [("A", ["id"]), ("B", ["bid"])]
        [⟨"B", "A", [("owner_id", "id")]⟩] 1).graph =
      aliasCount (load .mysql 1 [("A", ["id"]), ("B", ["bid"])]
        [⟨"B", "A", [("owner_id", "id")]⟩] 0).graph := by
  have h := load_reload_isomorphic .mysql 1 [("A", ["id"]), ("B", ["bid"])]
    [⟨"B", "A", [("owner_id", "id")]⟩] 0 1 (by decide)
  exact ⟨h.1, h.2.2.2.2.2.2⟩

/- ===================== C5: reachability saturation is correct ===================== -/

/-- Well-formedness of a graph value: every edge endpoint is a node key.
Every graph `load` builds satisfies this (`addEdge` inserts missing
endpoints). -/
def Wf (g : Graph) : Prop := ∀ e ∈ g.edges, e.1 ∈ nodeKeys g ∧ e.2.1 ∈ nodeKeys g

lemma mem_succList_iff (g : Graph) (u v : Node) :
    v ∈ g.succList u ↔ edgeRel g u v := by
  unfold Graph.succList edgeRel
  simp only [List.mem_map, List.mem_filter, beq_iff_eq]
  constructor
  · rintro ⟨e, ⟨he, hu⟩, hv⟩
    exact ⟨e.2.2, by rw [← hu, ← hv]; exact he⟩
  · rintro ⟨p, hp⟩
    exact ⟨(u, v, p), ⟨hp, rfl⟩, rfl⟩

lemma edgeRel_mem_left (g : Graph) (hwf : Wf g) {u v : Node} (h : edgeRel g u v) :
    u ∈ nodeKeys g := by
  obtain ⟨p, hp⟩ := h
  exact (hwf _ hp).1

lemma edgeRel_mem_right (g : Graph) (hwf : Wf g) {u v : Node} (h : edgeRel g u v) :
    v ∈ nodeKeys g := by
  obtain ⟨p, hp⟩ := h
  exact (hwf _ hp).2

lemma satStep_preserves (g : Graph) (P : Node → Prop)
    (hstep : ∀ u v, P u → edgeRel g u v → P v) (s : Finset Node)
    (hs : ∀ v ∈ s, P v) : ∀ v ∈ satStep g s, P v := by
  intro v hv
  unfold satStep at hv
  rcases Finset.mem_union.mp hv with h | h
  · exact hs v h
  · obtain ⟨u, hu, hv2⟩ := Finset.mem_biUnion.mp h
    rw [List.mem_toFinset] at hv2
    exact hstep u v (hs u hu) ((mem_succList_iff g u v).mp hv2)

lemma iterSat_preserves (g : Graph) (P : Node → Prop)
    (hstep : ∀ u v, P u → edgeRel g u v → P v) :
    ∀ (fuel : Nat) (s : Finset Node), (∀ v ∈ s, P v) → ∀ v ∈ iterSat g fuel s, P v := by
  intro fuel
  induction fuel with
  | zero => intro s hs; exact hs
  | succ n ih =>
    intro s hs
    simp only [iterSat]
    split
    · exact hs
    · exact ih (satStep g s) (satStep_preserves g P hstep s hs)

/-- Everything in the saturated successor set is reachable. -/
lemma descFinset_sound (g : Graph) (u : Node) :
    ∀ v ∈ descFinset g u, Reaches g u v := by
  apply iterSat_preserves g (Reaches g u)
  · intro a b ha hab
    exact Relation.TransGen.tail ha hab
  · intro v hv
    rw [List.mem_toFinset, mem_succList_iff] at hv
    exact Relation.TransGen.single hv

lemma subset_satStep (g : Graph) (s : Finset Node) : s ⊆ satStep g s :=
  Finset.subset_union_left

lemma subset_iterSat (g : Graph) :
    ∀ (fuel : Nat) (s : Finset Node), s ⊆ iterSat g fuel s := by
  intro fuel
  induction fuel with
  | zero => intro s; exact Finset.Subset.refl s
  | succ n ih =>
    intro s
    simp only [iterSat]
    split
    · exact Finset.Subset.refl s
    · exact Finset.Subset.trans (subset_satStep g s) (ih (satStep g s))

lemma satStep_subset_closed (g : Graph) (hwf : Wf g) (s : Finset Node)
    (hs : s ⊆ (nodeKeys g).toFinset) : satStep g s ⊆ (nodeKeys g).toFinset := by
  intro v hv
  unfold satStep at hv
  rcases Finset.mem_union.mp hv with h | h
  · exact hs h
  · obtain ⟨u, _, hv2⟩ := Finset.mem_biUnion.mp h
    rw [List.mem_toFinset] at hv2
    rw [List.mem_toFinset]
    exact edgeRel_mem_right g hwf ((mem_succList_iff g u v).mp hv2)

lemma iterSat_fix (g : Graph) (U : Finset Node)
    (hU : ∀ s, s ⊆ U → satStep g s ⊆ U) :
    ∀ (fuel : Nat) (s : Finset Node), s ⊆ U → U.card ≤ fuel + s.card →
      satStep g (iterSat g fuel s) = iterSat g fuel s := by
  intro fuel
  induction fuel with
  | zero =>
    intro s hs hcard
    simp only [iterSat]
    have hsU : s = U := Finset.eq_of_subset_of_card_le hs (by omega)
    subst hsU
    exact Finset.Subset.antisymm (hU s (Finset.Subset.refl s)) (subset_satStep g s)
  | succ n ih =>
    intro s hs hcard
    simp only [iterSat]
    by_cases h : satStep g s = s
    · rw [if_pos h]
      exact h
    · rw [if_neg h]
      have hss : s ⊂ satStep g s :=
        ⟨subset_satStep g s,
          fun hsub => h (Finset.Subset.antisymm hsub (subset_satStep g s))⟩
      have hlt := Finset.card_lt_card hss
      exact ih (satStep g s) (hU s hs) (by omega)

lemma descFinset_fix (g : Graph) (u : Node) (hwf : Wf g) :
    satStep g (descFinset g u) = descFinset g u := by
  unfold descFinset
  apply iterSat_fix g (nodeKeys g).toFinset (fun s hs => satStep_subset_closed g hwf s hs)
  · intro v hv
    rw [List.mem_toFinset] at hv ⊢
    exact edgeRel_mem_right g hwf ((mem_succList_iff g u v).mp hv)
  · have h1 : (nodeKeys g).toFinset.card ≤ (nodeKeys g).length := (nodeKeys g).toFinset_card_le
    have h2 : (nodeKeys g).length = g.nodes.length := by
      unfold nodeKeys
      exact List.length_map _ _
    omega

/-- Everything reachable is in the saturated successor set. -/
lemma descFinset_complete (g : Graph) (u : Node) (hwf : Wf g) :
    ∀ v, Reaches g u v → v ∈ descFinset g u := by
  intro v hr
  induction hr with
  | single h =>
    apply subset_iterSat
    rw [List.mem_toFinset, mem_succList_iff]
    exact h
  | tail _ h ih =>
    rw [← descFinset_fix g u hwf]
    unfold satStep
    apply Finset.mem_union_right
    apply Finset.mem_biUnion.mpr
    refine ⟨_, ih, ?_⟩
    rw [List.mem_toFinset, mem_succList_iff]
    exact h

lemma descFinset_iff (g : Graph) (u : Node) (hwf : Wf g) (v : Node) :
    v ∈ descFinset g u ↔ Reaches g u v :=
  ⟨descFinset_sound g u v, descFinset_complete g u hwf v⟩

/-- The executable acyclicity check agrees with "no node reaches itself"
on well-formed graphs. -/
lemma isAcyclic_iff (g : Graph) (hwf : Wf g) :
    isAcyclic g = true ↔ ∀ v, ¬ Reaches g v v := by
  unfold isAcyclic
  rw [List.all_eq_true]
  constructor
  · intro h v hvv
    have hvmem : v ∈ nodeKeys g := by
      cases hvv with
      | single h1 => exact edgeRel_mem_right g hwf h1
      | tail _ h1 => exact edgeRel_mem_right g hwf h1
    obtain ⟨p, hp, hpv⟩ := List.mem_map.mp hvmem
    have := h p hp
    rw [decide_eq_true_eq] at this
    rw [hpv] at this
    exact this (descFinset_complete g v hwf v hvv)
  · intro h p _
    rw [decide_eq_true_eq]
    intro hm
    exact h p.1 (descFinset_sound g p.1 p.1 hm)

/- ===================== Subgraph and reverse-graph lemmas ===================== -/

lemma edgeRel_subgraph_iff (g : Graph) (s : Finset Node) (u v : Node) :
    edgeRel (subgraphOn g s) u v ↔ edgeRel g u v ∧ u ∈ s ∧ v ∈ s := by
  unfold edgeRel subgraphOn
  simp only [List.mem_filter, Bool.and_eq_true, decide_eq_true_eq]
  constructor
  · rintro ⟨p, hp, hu, hv⟩
    exact ⟨⟨p, hp⟩, hu, hv⟩
  · rintro ⟨⟨p, hp⟩, hu, hv⟩
    exact ⟨p, hp, hu, hv⟩

lemma nodeKeys_subgraph (g : Graph) (s : Finset Node) (n : Node) :
    n ∈ nodeKeys (subgraphOn g s) ↔ n ∈ nodeKeys g ∧ n ∈ s := by
  unfold nodeKeys subgraphOn
  simp only [List.mem_map, List.mem_filter, decide_eq_true_eq]
  constructor
  · rintro ⟨p, ⟨hp, hs⟩, he⟩
    exact ⟨⟨p, hp, he⟩, he ▸ hs⟩
  · rintro ⟨⟨p, hp, he⟩, hs⟩
    exact ⟨p, ⟨hp, he ▸ hs⟩, he⟩

lemma Wf_subgraph (g : Graph) (s : Finset Node) (hwf : Wf g) : Wf (subgraphOn g s) := by
  intro e he
  have he2 := he
  unfold subgraphOn at he2
  simp only [List.mem_filter, Bool.and_eq_true, decide_eq_true_eq] at he2
  obtain ⟨hg, hu, hv⟩ := he2
  constructor
  · exact (nodeKeys_subgraph g s e.1).mpr ⟨(hwf e hg).1, hu⟩
  · exact (nodeKeys_subgraph g s e.2.1).mpr ⟨(hwf e hg).2, hv⟩

lemma Reaches_subgraph_mono (g : Graph) (s : Finset Node) {u v : Node}
    (h : Reaches (subgraphOn g s) u v) : Reaches g u v :=
  Relation.TransGen.mono (fun a b hab => ((edgeRel_subgraph_iff g s a b).mp hab).1) h

lemma nodeKeys_subgraph_nodup (g : Graph) (s : Finset Node)
    (hnd : (nodeKeys g).Nodup) : (nodeKeys (subgraphOn g s)).Nodup := by
  unfold nodeKeys at hnd ⊢
  unfold subgraphOn
  exact hnd.sublist (List.Sublist.map _ (List.filter_sublist _))

lemma edgeRel_reverse_iff (g : Graph) (u v : Node) :
    edgeRel g.reverse u v ↔ edgeRel g v u := by
  unfold edgeRel Graph.reverse
  simp only [List.mem_map]
  constructor
  · rintro ⟨p, e, he, heq⟩
    have h1 : e.2.1 = u := congrArg Prod.fst heq
    have h2 : e.1 = v := congrArg (fun x => x.2.1) heq
    refine ⟨e.2.2, ?_⟩
    rw [← h2, ← h1]
    exact he
  · rintro ⟨p, hp⟩
    exact ⟨p, (v, u, p), hp, rfl⟩

lemma Reaches_reverse_iff (g : Graph) (u v : Node) :
    Reaches g.reverse u v ↔ Reaches g v u := by
  constructor
  · intro h
    induction h with
    | single h1 => exact Relation.TransGen.single ((edgeRel_reverse_iff g _ _).mp h1)
    | tail _ h1 ih => exact Relation.TransGen.head ((edgeRel_reverse_iff g _ _).mp h1) ih
  · intro h
    induction h with
    | single h1 => exact Relation.TransGen.single ((edgeRel_reverse_iff g _ _).mpr h1)
    | tail _ h1 ih => exact Relation.TransGen.head ((edgeRel_reverse_iff g _ _).mpr h1) ih

lemma nodeKeys_reverse (g : Graph) : nodeKeys g.reverse = nodeKeys g := rfl

lemma Wf_reverse (g : Graph) (hwf : Wf g) : Wf g.reverse := by
  intro e he
  unfold Graph.reverse at he
  simp only [List.mem_map] at he
  obtain ⟨e0, he0, heq⟩ := he
  have h1 : e.1 = e0.2.1 := (congrArg Prod.fst heq).symm
  have h2 : e.2.1 = e0.1 := (congrArg (fun x => x.2.1) heq).symm
  refine ⟨?_, ?_⟩
  · rw [nodeKeys_reverse, h1]
    exact (hwf e0 he0).2
  · rw [nodeKeys_reverse, h2]
    exact (hwf e0 he0).1

/- ===================== Kahn-style sort: correctness ===================== -/

lemma pickSource_mem (g : Graph) (rem : List Node) (v : Node)
    (h : pickSource g rem = some v) : v ∈ rem :=
  List.mem_of_find?_eq_some h

lemma pickSource_no_incoming (g : Graph) (rem : List Node) (v : Node)
    (h : pickSource g rem = some v) : ∀ u ∈ rem, ¬ edgeRel g u v := by
  have hp := List.find?_some h
  rw [Bool.not_eq_true'] at hp
  intro u hu hedge
  obtain ⟨p, hp2⟩ := hedge
  have hfalse := List.any_eq_false.mp hp (u, v, p) hp2
  apply hfalse
  simp [hu]

lemma pickSource_isSome (g : Graph) (rem : List Node)
    (hacy : ∀ v, ¬ Reaches g v v) (hne : rem ≠ []) :
    ∃ v, pickSource g rem = some v := by
  by_contra hc
  push_neg at hc
  cases hps : pickSource g rem with
  | some v => exact hc v hps
  | none =>
    have hall := List.find?_eq_none.mp hps
    have hpred : ∀ v ∈ rem, ∃ u ∈ rem, edgeRel g u v := by
      intro v hv
      have h1 := hall v hv
      have h2 : (g.edges.any fun e => e.2.1 == v && rem.contains e.1) = true := by
        rcases Bool.eq_false_or_eq_true (g.edges.any fun e => e.2.1 == v && rem.contains e.1)
          with hb | hb
        · exact hb
        · exact absurd (by rw [hb]; rfl) h1
      obtain ⟨e, he, hcond⟩ := List.any_eq_true.mp h2
      simp only [Bool.and_eq_true, beq_iff_eq] at hcond
      obtain ⟨hv2, hcont⟩ := hcond
      refine ⟨e.1, by simpa using hcont, ⟨e.2.2, ?_⟩⟩
      rw [← hv2]
      exact he
    obtain ⟨x0, hx0⟩ := List.exists_mem_of_ne_nil rem hne
    have hpred2 : ∀ v : {x // x ∈ rem}, ∃ u : {x // x ∈ rem}, edgeRel g u.1 v.1 := by
      rintro ⟨v, hv⟩
      obtain ⟨u, hu, he⟩ := hpred v hv
      exact ⟨⟨u, hu⟩, he⟩
    choose f hf using hpred2
    let F : Nat → {x // x ∈ rem} := fun n => Nat.rec ⟨x0, hx0⟩ (fun _ prev => f prev) n
    have hstep : ∀ n, edgeRel g (F (n + 1)).1 (F n).1 := fun n => hf (F n)
    have hchain : ∀ d i, Reaches g (F (i + d + 1)).1 (F i).1 := by
      intro d
      induction d with
      | zero => intro i; exact Relation.TransGen.single (hstep i)
      | succ m ih =>
        intro i
        have hidx : i + (m + 1) + 1 = (i + m + 1) + 1 := by omega
        rw [hidx]
        exact Relation.TransGen.head (hstep (i + m + 1)) (by
          have h2 := ih i
          have hidx2 : i + m + 1 = (i + m) + 1 := by omega
          exact h2)
    have hcollide : ∀ i j, i < j → (F i).1 = (F j).1 → False := by
      intro i j hij heq
      have hr := hchain (j - i - 1) i
      have hidx : i + (j - i - 1) + 1 = j := by omega
      rw [hidx] at hr
      rw [heq] at hr
      exact hacy _ hr
    have hmap : ∀ n ∈ Finset.range (rem.toFinset.card + 1), (F n).1 ∈ rem.toFinset := by
      intro n _
      rw [List.mem_toFinset]
      exact (F n).2
    have hcard : rem.toFinset.card < (Finset.range (rem.toFinset.card + 1)).card := by
      rw [Finset.card_range]
      omega
    obtain ⟨i, _, j, _, hij, hFij⟩ :=
      Finset.exists_ne_map_eq_of_card_lt_of_maps_to hcard hmap
    rcases Nat.lt_or_ge i j with hlt | hge
    · exact hcollide i j hlt hFij
    · exact hcollide j i (by omega) hFij.symm

lemma topoAux_subset (g : Graph) :
    ∀ (fuel : Nat) (rem : List Node), ∀ x ∈ topoAux g fuel rem, x ∈ rem := by
  intro fuel
  induction fuel with
  | zero => intro rem x hx; exact absurd hx (List.not_mem_nil x)
  | succ n ih =>
    intro rem x hx
    cases hps : pickSource g rem with
    | none =>
      simp only [topoAux, hps] at hx
      exact absurd hx (List.not_mem_nil x)
    | some v =>
      simp only [topoAux, hps] at hx
      rcases List.mem_cons.mp hx with h | h
      · rw [h]
        exact pickSource_mem g rem v hps
      · exact List.mem_of_mem_erase (ih (rem.erase v) x h)

lemma topoAux_perm (g : Graph) (hacy : ∀ v, ¬ Reaches g v v) :
    ∀ (fuel : Nat) (rem : List Node), rem.length ≤ fuel →
      (topoAux g fuel rem).Perm rem := by
  intro fuel
  induction fuel with
  | zero =>
    intro rem h
    have hn : rem = [] := List.length_eq_zero.mp (by omega)
    rw [hn]
    exact List.Perm.refl _
  | succ n ih =>
    intro rem h
    by_cases hne : rem = []
    · rw [hne]
      simp [topoAux, pickSource]
    · obtain ⟨v, hv⟩ := pickSource_isSome g rem hacy hne
      simp only [topoAux, hv]
      have hvm := pickSource_mem g rem v hv
      have hperm := ih (rem.erase v) (by
        have h1 := List.length_erase_of_mem hvm
        have h2 : 0 < rem.length := List.length_pos.mpr hne
        omega)
      exact (hperm.cons v).trans (List.perm_cons_erase hvm).symm

lemma topoAux_pairwise (g : Graph) :
    ∀ (fuel : Nat) (rem : List Node),
      List.Pairwise (fun a b => ¬ edgeRel g b a) (topoAux g fuel rem) := by
  intro fuel
  induction fuel with
  | zero => intro rem; exact List.Pairwise.nil
  | succ n ih =>
    intro rem
    cases hps : pickSource g rem with
    | none => simp [topoAux, hps]
    | some v =>
      simp only [topoAux, hps]
      refine List.Pairwise.cons ?_ (ih (rem.erase v))
      intro b hb hedge
      have hbm : b ∈ rem := List.mem_of_mem_erase (topoAux_subset g n (rem.erase v) b hb)
      exact pickSource_no_incoming g rem v hps b hbm hedge

/- ===================== From edge-level order to path-level order ===================== -/

lemma edge_get_lt (g : Graph) (L : List Node)
    (hacy : ∀ v, ¬ Reaches g v v)
    (hpw : List.Pairwise (fun a b => ¬ edgeRel g b a) L)
    (iu iv : Fin L.length) (h : edgeRel g (L.get iu) (L.get iv)) :
    (iu : Nat) < iv := by
  rcases Nat.lt_trichotomy iu.1 iv.1 with h1 | h1 | h1
  · exact h1
  · exfalso
    have heq : iu = iv := Fin.ext h1
    rw [heq] at h
    exact hacy _ (Relation.TransGen.single h)
  · exfalso
    exact List.pairwise_iff_get.mp hpw iv iu h1 h

lemma reaches_get_lt (g : Graph) (L : List Node)
    (hacy : ∀ v, ¬ Reaches g v v) (hwf : Wf g)
    (hcomp : ∀ v ∈ nodeKeys g, v ∈ L)
    (hpw : List.Pairwise (fun a b => ¬ edgeRel g b a) L) :
    ∀ u v, Reaches g u v → ∀ (iu iv : Fin L.length),
      L.get iu = u → L.get iv = v → (iu : Nat) < iv := by
  intro u v hr
  induction hr with
  | single h =>
    intro iu iv hu hv
    apply edge_get_lt g L hacy hpw
    rw [hu, hv]
    exact h
  | tail _ h ih =>
    intro iu iv hu hv
    have hbmem := hcomp _ (edgeRel_mem_left g hwf h)
    obtain ⟨ib, hib⟩ := List.mem_iff_get.mp hbmem
    have h1 := ih iu ib hu hib
    have h2 : (ib : Nat) < iv := by
      apply edge_get_lt g L hacy hpw
      rw [hib, hv]
      exact h
    omega

lemma pairwise_no_back_paths (g : Graph) (L : List Node)
    (hacy : ∀ v, ¬ Reaches g v v) (hwf : Wf g)
    (hcomp : ∀ v ∈ nodeKeys g, v ∈ L)
    (hpw : List.Pairwise (fun a b => ¬ edgeRel g b a) L) :
    List.Pairwise (fun a b => ¬ Reaches g b a) L := by
  rw [List.pairwise_iff_get]
  intro i j hij hr
  have h1 := reaches_get_lt g L hacy hwf hcomp hpw (L.get j) (L.get i) hr j i rfl rfl
  omega

/- ===================== Paths restricted to closed node sets ===================== -/

lemma reach_closed_of_edge_closed (g : Graph) (s : Finset Node)
    (hclosed : ∀ a b, a ∈ s → edgeRel g a b → b ∈ s) :
    ∀ a b, a ∈ s → Reaches g a b → b ∈ s := by
  intro a b ha hr
  induction hr with
  | single h => exact hclosed _ _ ha h
  | tail _ h ih => exact hclosed _ _ ih h

lemma Reaches_within_forward (g : Graph) (s : Finset Node)
    (hclosed : ∀ a b, a ∈ s → edgeRel g a b → b ∈ s) {u v : Node}
    (hu : u ∈ s) (hr : Reaches g u v) : Reaches (subgraphOn g s) u v := by
  induction hr with
  | single h =>
    exact Relation.TransGen.single
      ((edgeRel_subgraph_iff g s _ _).mpr ⟨h, hu, hclosed _ _ hu h⟩)
  | tail hr2 h ih =>
    have hb := reach_closed_of_edge_closed g s hclosed _ _ hu hr2
    exact Relation.TransGen.tail ih
      ((edgeRel_subgraph_iff g s _ _).mpr ⟨h, hb, hclosed _ _ hb h⟩)

lemma Reaches_within_backward (g : Graph) (s : Finset Node)
    (hback : ∀ a b, b ∈ s → edgeRel g a b → a ∈ s) {u v : Node}
    (hr : Reaches g u v) : v ∈ s → Reaches (subgraphOn g s) u v := by
  induction hr with
  | single h =>
    intro hv
    exact Relation.TransGen.single
      ((edgeRel_subgraph_iff g s _ _).mpr ⟨h, hback _ _ hv h, hv⟩)
  | tail _ h ih =>
    intro hv
    have hb := hback _ _ hv h
    exact Relation.TransGen.tail (ih hb)
      ((edgeRel_subgraph_iff g s _ _).mpr ⟨h, hb, hv⟩)

lemma reaches_target_mem (g : Graph) (hwf : Wf g) {u v : Node}
    (hr : Reaches g u v) : v ∈ nodeKeys g := by
  cases hr with
  | single h => exact edgeRel_mem_right g hwf h
  | tail _ h => exact edgeRel_mem_right g hwf h

/- ===================== C5: descendants / ancestors ===================== -/

lemma descendants_correct (g : Graph) (t : String)
    (hwf : Wf g) (hnd : (nodeKeys g).Nodup) (hacyR : ∀ v, ¬ Reaches g v v) :
    (∀ v, v ∈ topoSort (subgraphOn g (descFinset g (.table t))) ↔
      Reaches g (.table t) v) ∧
    (topoSort (subgraphOn g (descFinset g (.table t)))).Nodup ∧
    List.Pairwise (fun a b => ¬ Reaches g b a)
      (Node.table t :: topoSort (subgraphOn g (descFinset g (.table t)))) := by
  have hwfs : Wf (subgraphOn g (descFinset g (.table t))) := Wf_subgraph _ _ hwf
  have hacys : ∀ v, ¬ Reaches (subgraphOn g (descFinset g (.table t))) v v :=
    fun v hv => hacyR v (Reaches_subgraph_mono _ _ hv)
  have hlen : (nodeKeys (subgraphOn g (descFinset g (.table t)))).length =
      (subgraphOn g (descFinset g (.table t))).nodes.length := by
    unfold nodeKeys
    rw [List.length_map]
  have hperm : (topoSort (subgraphOn g (descFinset g (.table t)))).Perm
      (nodeKeys (subgraphOn g (descFinset g (.table t)))) := by
    unfold topoSort
    exact topoAux_perm _ hacys _ _ (le_of_eq hlen)
  have hmem : ∀ v, v ∈ topoSort (subgraphOn g (descFinset g (.table t))) ↔
      Reaches g (.table t) v := by
    intro v
    rw [hperm.mem_iff, nodeKeys_subgraph]
    constructor
    · rintro ⟨_, hs⟩
      exact descFinset_sound g _ v hs
    · intro hr
      exact ⟨reaches_target_mem g hwf hr, descFinset_complete g _ hwf v hr⟩
  refine ⟨hmem, (hperm.nodup_iff).mpr (nodeKeys_subgraph_nodup g _ hnd), ?_⟩
  rw [List.pairwise_cons]
  constructor
  · intro v hv hr
    have h1 := (hmem v).mp hv
    exact hacyR _ (Relation.TransGen.trans h1 hr)
  · have hcomp : ∀ v ∈ nodeKeys (subgraphOn g (descFinset g (.table t))),
        v ∈ topoSort (subgraphOn g (descFinset g (.table t))) :=
      fun v hv => hperm.mem_iff.mpr hv
    have hpwe : List.Pairwise
        (fun a b => ¬ edgeRel (subgraphOn g (descFinset g (.table t))) b a)
        (topoSort (subgraphOn g (descFinset g (.table t)))) :=
      topoAux_pairwise _ _ _
    have hpwr := pairwise_no_back_paths _ _ hacys hwfs hcomp hpwe
    apply List.Pairwise.imp_of_mem ?_ hpwr
    intro a b ha hb hnr hr
    apply hnr
    have hbs : b ∈ descFinset g (.table t) :=
      descFinset_complete g _ hwf b ((hmem b).mp hb)
    have hclosed : ∀ x y, x ∈ descFinset g (.table t) → edgeRel g x y →
        y ∈ descFinset g (.table t) :=
      fun x y hx he => descFinset_complete g _ hwf y
        (Relation.TransGen.tail (descFinset_sound g _ x hx) he)
    exact Reaches_within_forward g _ hclosed hbs hr

lemma ancestors_correct (g : Graph) (t : String)
    (hwf : Wf g) (hnd : (nodeKeys g).Nodup) (hacyR : ∀ v, ¬ Reaches g v v) :
    (∀ v, v ∈ topoSort (subgraphOn g (ancFinset g (.table t))) ↔
      Reaches g v (.table t)) ∧
    (topoSort (subgraphOn g (ancFinset g (.table t)))).Nodup ∧
    List.Pairwise (fun a b => ¬ Reaches g b a)
      (topoSort (subgraphOn g (ancFinset g (.table t)))) := by
  have hwfr : Wf g.reverse := Wf_reverse g hwf
  have hwfs : Wf (subgraphOn g (ancFinset g (.table t))) := Wf_subgraph _ _ hwf
  have hacys : ∀ v, ¬ Reaches (subgraphOn g (ancFinset g (.table t))) v v :=
    fun v hv => hacyR v (Reaches_subgraph_mono _ _ hv)
  have hlen : (nodeKeys (subgraphOn g (ancFinset g (.table t)))).length =
      (subgraphOn g (ancFinset g (.table t))).nodes.length := by
    unfold nodeKeys
    rw [List.length_map]
  have hperm : (topoSort (subgraphOn g (ancFinset g (.table t)))).Perm
      (nodeKeys (subgraphOn g (ancFinset g (.table t)))) := by
    unfold topoSort
    exact topoAux_perm _ hacys _ _ (le_of_eq hlen)
  have hanc : ∀ v, v ∈ ancFinset g (.table t) ↔ Reaches g v (.table t) := by
    intro v
    unfold ancFinset
    rw [descFinset_iff g.reverse _ hwfr, Reaches_reverse_iff]
  have hmem : ∀ v, v ∈ topoSort (subgraphOn g (ancFinset g (.table t))) ↔
      Reaches g v (.table t) := by
    intro v
    rw [hperm.mem_iff, nodeKeys_subgraph]
    constructor
    · rintro ⟨_, hs⟩
      exact (hanc v).mp hs
    · intro hr
      refine ⟨?_, (hanc v).mpr hr⟩
      have h1 : Reaches g.reverse (.table t) v := (Reaches_reverse_iff g _ _).mpr hr
      have h2 := reaches_target_mem g.reverse hwfr h1
      rw [nodeKeys_reverse] at h2
      exact h2
  refine ⟨hmem, (hperm.nodup_iff).mpr (nodeKeys_subgraph_nodup g _ hnd), ?_⟩
  have hcomp : ∀ v ∈ nodeKeys (subgraphOn g (ancFinset g (.table t))),
      v ∈ topoSort (subgraphOn g (ancFinset g (.table t))) :=
    fun v hv => hperm.mem_iff.mpr hv
  have hpwe : List.Pairwise
      (fun a b => ¬ edgeRel (subgraphOn g (ancFinset g (.table t))) b a)
      (topoSort (subgraphOn g (ancFinset g (.table t)))) :=
    topoAux_pairwise _ _ _
  have hpwr := pairwise_no_back_paths _ _ hacys hwfs hcomp hpwe
  apply List.Pairwise.imp_of_mem ?_ hpwr
  intro a b ha hb hnr hr
  apply hnr
  have has : a ∈ ancFinset g (.table t) := (hanc a).mpr ((hmem a).mp ha)
  have hback : ∀ x y, y ∈ ancFinset g (.table t) → edgeRel g x y →
      x ∈ ancFinset g (.table t) := by
    intro x y hy he
    have h1 : Reaches g.reverse (.table t) y := descFinset_sound g.reverse _ y hy
    have h2 : edgeRel g.reverse y x := (edgeRel_reverse_iff g _ _).mpr he
    exact descFinset_complete g.reverse _ hwfr x (Relation.TransGen.tail h1 h2)
  exact Reaches_within_backward g _ hback hr has

/-- C5: for a well-formed, duplicate-free, acyclic loaded graph and a
table present in it: `descendants` returns the table itself first,
followed by exactly the nodes reachable from it (no duplicates) in a
topological order — no element of the returned list reaches any earlier
element, i.e. every entry appears after all of its ancestors within the
list; `ancestors` returns the table itself first, followed by exactly the
nodes that reach it (no duplicates) in reverse topological order — no
element of the returned list is reached by any later element. -/
theorem descendants_ancestors_topological_order (g : Graph) (t : String)
    (hwf : Wf g) (hnd : (nodeKeys g).Nodup) (hacy : isAcyclic g = true)
    (_ht : Node.table t ∈ nodeKeys g) :
    ((descendants g t).head? = some (.table t) ∧
      (∀ v, v ∈ (descendants g t).tail ↔ Reaches g (.table t) v) ∧
      (descendants g t).tail.Nodup ∧
      List.Pairwise (fun a b => ¬ Reaches g b a) (descendants g t)) ∧
    ((ancestors g t).head? = some (.table t) ∧
      (∀ v, v ∈ (ancestors g t).tail ↔ Reaches g v (.table t)) ∧
      (ancestors g t).tail.Nodup ∧
      List.Pairwise (fun a b => ¬ Reaches g a b) (ancestors g t)) := by
  have hacyR := (isAcyclic_iff g hwf).mp hacy
  obtain ⟨hmem, hnodup, hpw⟩ := descendants_correct g t hwf hnd hacyR
  obtain ⟨hmem2, hnodup2, hpw2⟩ := ancestors_correct g t hwf hnd hacyR
  refine ⟨⟨rfl, hmem, hnodup, hpw⟩, rfl, ?_, ?_, ?_⟩
  · intro v
    show v ∈ (topoSort (subgraphOn g (ancFinset g (.table t)))).reverse ↔ _
    rw [List.mem_reverse]
    exact hmem2 v
  · show ((topoSort (subgraphOn g (ancFinset g (.table t)))).reverse).Nodup
    rw [List.nodup_reverse]
    exact hnodup2
  · show List.Pairwise _
      (Node.table t :: (topoSort (subgraphOn g (ancFinset g (.table t)))).reverse)
    rw [List.pairwise_cons]
    constructor
    · intro v hv hr
      rw [List.mem_reverse] at hv
      have h1 := (hmem2 v).mp hv
      exact hacyR _ (Relation.TransGen.trans hr h1)
    · rw [List.pairwise_reverse]
      exact hpw2

/-- Witness for C5 at a concrete input: the loaded one-aliased-key example
graph (table A, alias node, table B); `descendants(A)` starts with A and
its tail is duplicate-free, and `ancestors(B)` starts with B. -/
theorem descendants_ancestors_topological_order_witness :
    (descendants (load .mysql 1 [("A", ["id"]), ("B", ["bid"])]
        [⟨"B", "A", [("owner_id", "id")]⟩] 0).graph "A").head? =
      some (.table "A") ∧
    (descendants (load .mysql 1 [("A", ["id"]), ("B", ["bid"])]
        [⟨"B", "A", [("owner_id", "id")]⟩] 0).graph "A").tail.Nodup ∧
    (ancestors (load .mysql 1 [("A", ["id"]), ("B", ["bid"])]
        [⟨"B", "A", [("owner_id", "id")]⟩] 0).graph "B").head? =
      some (.table "B") := by
  have h1 := descendants_ancestors_topological_order
    (load .mysql 1 [("A", ["id"]), ("B", ["bid"])]
      [⟨"B", "A", [("owner_id", "id")]⟩] 0).graph "A"
    (by unfold Wf; decide) (by decide) (by decide) (by decide)
  have h2 := descendants_ancestors_topological_order
    (load .mysql 1 [("A", ["id"]), ("B", ["bid"])]
      [⟨"B", "A", [("owner_id", "id")]⟩] 0).graph "B"
    (by unfold Wf; decide) (by decide) (by decide) (by decide)
  exact ⟨h1.1.1, h1.1.2.2.1, h2.2.1⟩
